import Mathlib

/-!
Verification of the crawl-frontier program in `src/crawler.js`.

The JavaScript source is shallowly embedded: pure fragments become Lean
functions, the mutable crawl state (`crawledUrls` / `pendingUrls`) becomes
explicit state passing, external collaborators (the headless renderer, the
article extractor, the markdown converter, the filesystem writer) become
function parameters returning `Except` / `Option` values.
-/

/-- A discovered link as built by `findRelatedLinks` (crawler.js:119-123):
`{ url, title, type: 'related' }`. -/
structure Link where
  url : String
  title : String
  type : String
deriving DecidableEq, Repr

/-- A page record: the seed records built at crawler.js:40-47
(`{index, title, type, path, url}`) and the discovered records built at
crawler.js:159-164 (`{url, title, type, index}`, no `path`). -/
structure PageRecord where
  index : Nat
  title : String
  type : String
  path : Option String
  url : String
deriving DecidableEq, Repr

/-- One child of `interfaceLanguages.swift[0].children` as consumed at
crawler.js:37-48: the fields `path` and `title` (and `type`) are optional. -/
structure SeedChild where
  title : Option String
  path : Option String
  type : Option String
deriving DecidableEq, Repr

/-- The result of `Readability.parse()` when it is non-null
(crawler.js:173-174): a title and the extracted content fragment. -/
structure Article where
  title : String
  content : String
deriving DecidableEq, Repr

/-- The rendered document obtained from `page.content()` (crawler.js:149),
as observed by the three DOM queries the program performs on it:
the `a[href]` anchors (href and trimmed-source text), the Readability
parse result, and the `<title>` element's text. -/
structure RenderedPage where
  anchors : List (String × String)
  article : Option Article
  titleTag : Option String
deriving DecidableEq, Repr

/-- The object returned by `crawlSinglePage` (crawler.js:192-205):
either `{filename, content, success: true, newLinksFound}` or
`{success: false, error, newLinksFound}`. -/
structure CrawlOutcome where
  success : Bool
  filename : Option String := none
  content : Option String := none
  error : Option String := none
  newLinksFound : Nat
deriving DecidableEq, Repr

/-! ### String helpers (JS built-ins used by the source) -/

/-- `pat` is a literal prefix of `l` (helper for the JS substring test). -/
def leadsWith : List Char → List Char → Bool
  | [], _ => true
  | _ :: _, [] => false
  | p :: ps, c :: cs => p == c && leadsWith ps cs

/-- `pat` occurs contiguously inside `l`. -/
def hasSubstr (pat : List Char) : List Char → Bool
  | [] => leadsWith pat []
  | c :: cs => leadsWith pat (c :: cs) || hasSubstr pat cs

/-- JS `String.prototype.includes`: `substrOf pat s` iff `pat` is a
contiguous substring of `s`. -/
def substrOf (pat s : String) : Bool := hasSubstr pat.data s.data

/-- JS `String.prototype.toLowerCase` on one character (ASCII range, which
is the only range the program's namespace tokens use). -/
def lowerChar (c : Char) : Char :=
  if 65 ≤ c.toNat && c.toNat ≤ 90 then Char.ofNat (c.toNat + 32) else c

/-- JS `String.prototype.toLowerCase`. -/
def toLowerStr (s : String) : String := String.mk (s.data.map lowerChar)

/-- JS `Number.prototype.toString()` + `padStart(3, '0')` as used at
crawler.js:190 for the artifact filename's index part. -/
def padStart3 (n : Nat) : String :=
  String.mk (List.replicate (3 - (toString n).length) '0') ++ toString n

/-! ### sanitizeFilename (crawler.js:92-98) -/

/-- The character class `[<>:"/\\|?*]` of the first `replace` at
crawler.js:94 (by code point: `< > : " / \ | ? *`). -/
def illegalChar (c : Char) : Bool :=
  c.toNat = 60 || c.toNat = 62 || c.toNat = 58 || c.toNat = 34 ||
  c.toNat = 47 || c.toNat = 92 || c.toNat = 124 || c.toNat = 63 || c.toNat = 42

/-- The JS regular-expression class `\s` (whitespace), by code point. -/
def jsWhitespace (c : Char) : Bool :=
  c.toNat = 9 || c.toNat = 10 || c.toNat = 11 || c.toNat = 12 || c.toNat = 13 ||
  c.toNat = 32 || c.toNat = 160 || c.toNat = 5760 ||
  (8192 ≤ c.toNat && c.toNat ≤ 8202) ||
  c.toNat = 8232 || c.toNat = 8233 || c.toNat = 8239 || c.toNat = 8287 ||
  c.toNat = 12288 || c.toNat = 65279

/-- The JS regular-expression class `\w`: `[A-Za-z0-9_]`, by code point. -/
def wordChar (c : Char) : Bool :=
  (97 ≤ c.toNat && c.toNat ≤ 122) || (65 ≤ c.toNat && c.toNat ≤ 90) ||
  (48 ≤ c.toNat && c.toNat ≤ 57) || c.toNat = 95

/-- The class `[\w\-_.]` kept by the third `replace` at crawler.js:96
(`-` is 45, `.` is 46). -/
def keepChar (c : Char) : Bool :=
  wordChar c || c.toNat = 45 || c.toNat = 46

/-- JS `String.prototype.trim`: drop leading and trailing whitespace. -/
def jsTrim (s : String) : String :=
  String.mk (((s.data.dropWhile jsWhitespace).reverse.dropWhile jsWhitespace).reverse)

/-- `replace(/\s+/g, '_')` (crawler.js:95): each maximal whitespace run
becomes a single `'_'`. The flag records whether the previous character
belonged to a whitespace run already replaced. -/
def collapseWsAux : Bool → List Char → List Char
  | _, [] => []
  | prevWs, c :: cs =>
    if jsWhitespace c then
      (if prevWs then [] else ['_']) ++ collapseWsAux true cs
    else c :: collapseWsAux false cs

/-- `sanitizeFilename` (crawler.js:92-98): replace `[<>:"/\\|?*]` by `-`,
collapse whitespace runs to `_`, strip characters outside `[\w\-_.]`,
truncate to 100 characters (`substring(0, 100)`). -/
def sanitizeFilename (filename : String) : String :=
  String.mk
    ((((collapseWsAux false
        (filename.data.map (fun c => if illegalChar c then '-' else c))).filter
          keepChar).take 100))

/-! ### findRelatedLinks (crawler.js:101-129) -/

/-- Resolution of a relative link at crawler.js:111-114: an href beginning
with `/` is prefixed with the fixed origin. -/
def resolveHref (href : String) : String :=
  if leadsWith ['/'] href.data then "https://developer.apple.com" ++ href else href

/-- `findRelatedLinks` (crawler.js:101-129): for each `a[href]` anchor
(href, text-content), keep it when the href contains `/documentation/` and
the resolved URL contains `/documentation/<currentFramework>/` for the
framework as given or lower-cased; the title is the trimmed text, with
`'Untitled'` for an empty one. -/
def findRelatedLinks (anchors : List (String × String)) (currentFramework : String) :
    List Link :=
  anchors.filterMap (fun anchor =>
    let href := anchor.1
    let text := jsTrim anchor.2
    if substrOf "/documentation/" href then
      let fullUrl := resolveHref href
      if substrOf ("/documentation/" ++ currentFramework ++ "/") fullUrl
          || substrOf ("/documentation/" ++ toLowerStr currentFramework ++ "/") fullUrl then
        some { url := fullUrl,
               title := if text == "" then "Untitled" else text,
               type := "related" }
      else none
    else none)

/-- The scope test applied to one href by `findRelatedLinks`
(crawler.js:110-118), as a standalone predicate. -/
def linkInScope (href currentFramework : String) : Bool :=
  substrOf "/documentation/" href &&
    (substrOf ("/documentation/" ++ currentFramework ++ "/") (resolveHref href)
      || substrOf ("/documentation/" ++ toLowerStr currentFramework ++ "/") (resolveHref href))

/-- The scope test as actually invoked by the orchestrator: `crawlPages`
lower-cases the topic first (`currentFramework = topicName.toLowerCase()`,
crawler.js:239) before handing it to the workers. -/
def inScopeInvoked (href topicName : String) : Bool :=
  linkInScope href (toLowerStr topicName)

/-! ### The admission block of crawlSinglePage (crawler.js:156-167) -/

/-- The `relatedLinks.forEach` block at crawler.js:156-167, one link at a
time, threading the mutated `pendingUrls` map: a link whose url is in
neither `crawledUrls` nor the pending map is appended to the pending map,
keyed by its url, with `index := crawledUrls.size + pendingUrls.size` at
the moment of insertion; the second component is `newLinksCount`, the
number of links so admitted. -/
def admitLinks : List Link → List String → List (String × PageRecord) →
    List (String × PageRecord) × Nat
  | [], _, pendingUrls => (pendingUrls, 0)
  | link :: rest, crawledUrls, pendingUrls =>
    if !(crawledUrls.contains link.url) && !((pendingUrls.map Prod.fst).contains link.url) then
      let next := admitLinks rest crawledUrls (pendingUrls ++ [(link.url,
        { url := link.url, title := link.title, type := link.type, path := none,
          index := crawledUrls.length + pendingUrls.length })])
      (next.1, next.2 + 1)
    else admitLinks rest crawledUrls pendingUrls

/-! ### crawlSinglePage (crawler.js:132-209) -/

/-- `crawlSinglePage` (crawler.js:132-209). `rendered` is the result of
`page.goto` + `page.content()`; an exception there is the `.error` case and
reaches the catch clause at crawler.js:203-205 before any admission, so the
pending map is returned unchanged with `newLinksFound = 0`. On a rendered
page the related links are admitted first (crawler.js:151-167); then
Readability runs: a null article gives the failure object of
crawler.js:200, and a conversion error reaches the catch clause with
`newLinksFound: 0` (but the admissions already performed stand). On
success the outcome carries the filename (padded index + sanitized title)
and the `# title` + markdown content (crawler.js:190-197). -/
def crawlSinglePage (rendered : Except String RenderedPage)
    (convert : String → Except String String) (pageInfo : PageRecord)
    (crawledUrls : List String) (pendingUrls : List (String × PageRecord))
    (currentFramework : String) : CrawlOutcome × List (String × PageRecord) :=
  match rendered with
  | .error e => ({ success := false, error := some e, newLinksFound := 0 }, pendingUrls)
  | .ok page =>
    let relatedLinks := findRelatedLinks page.anchors currentFramework
    let admitted := admitLinks relatedLinks crawledUrls pendingUrls
    match page.article with
    | none =>
      ({ success := false, error := some "Unable to extract content",
         newLinksFound := admitted.2 }, admitted.1)
    | some article =>
      match convert article.content with
      | .error e =>
        ({ success := false, error := some e, newLinksFound := 0 }, admitted.1)
      | .ok markdown =>
        let pageTitle :=
          match page.titleTag with
          | some t => jsTrim t
          | none => if article.title == "" then pageInfo.title else article.title
        let filename := padStart3 pageInfo.index ++ "_" ++ sanitizeFilename pageTitle ++ ".md"
        ({ success := true, filename := some filename,
           content := some ("# " ++ pageTitle ++ "\n\n" ++ markdown),
           newLinksFound := admitted.2 }, admitted.1)

/-! ### The Frontier: crawledUrls / pendingUrls (crawler.js:226-254) -/

/-- The two tracking collections of `crawlPages` (crawler.js:226-227):
`crawledUrls` is a JS `Set` (element list without duplicates) and
`pendingUrls` a JS `Map` url → record (association list in insertion
order). -/
structure FrontierState where
  crawledUrls : List String
  pendingUrls : List (String × PageRecord)
deriving DecidableEq, Repr

/-- The key list of the pending map. -/
def pendingKeys (s : FrontierState) : List String := s.pendingUrls.map Prod.fst

/-- JS `Set.prototype.add`: append unless already present. -/
def setAdd (l : List String) (x : String) : List String :=
  if l.contains x then l else l ++ [x]

/-- JS `Map.prototype.delete`: remove the entry with the given key. -/
def mapDelete (m : List (String × PageRecord)) (k : String) :
    List (String × PageRecord) :=
  m.filter (fun p => !(p.1 == k))

/-- JS `Map.prototype.set`: replace in place when the key exists, append
otherwise. -/
def mapSet (m : List (String × PageRecord)) (k : String) (v : PageRecord) :
    List (String × PageRecord) :=
  if (m.map Prod.fst).contains k then
    m.map (fun p => if p.1 == k then (k, v) else p)
  else m ++ [(k, v)]

/-- A single worker-side admission (one iteration of the forEach at
crawler.js:157-167) expressed on the frontier state. -/
def admitLink (s : FrontierState) (l : Link) : FrontierState :=
  if !(s.crawledUrls.contains l.url) && !((pendingKeys s).contains l.url) then
    { s with pendingUrls := s.pendingUrls ++ [(l.url,
        { url := l.url, title := l.title, type := l.type, path := none,
          index := s.crawledUrls.length + s.pendingUrls.length })] }
  else s

/-- The body of the `currentBatch.forEach` at crawler.js:251-254, for one
drained record: `pendingUrls.delete(pageInfo.url); crawledUrls.add(pageInfo.url)`. -/
def drainStep (st : FrontierState) (pageInfo : PageRecord) : FrontierState :=
  { crawledUrls := setAdd st.crawledUrls pageInfo.url,
    pendingUrls := mapDelete st.pendingUrls pageInfo.url }

/-- `drainBatch` — the batch-slicing step at crawler.js:248-254:
`currentBatch = Array.from(pendingUrls.values()).slice(0, limit)`, then for
each drained record `pendingUrls.delete(url); crawledUrls.add(url)`. -/
def drainBatch (s : FrontierState) (limit : Nat) :
    FrontierState × List PageRecord :=
  let currentBatch := (s.pendingUrls.map Prod.snd).take limit
  (currentBatch.foldl drainStep s, currentBatch)

/-- Seeding (crawler.js:230-232): every seed record is `Map.set` into the
pending map of the empty state. -/
def seedState (urls : List PageRecord) : FrontierState :=
  { crawledUrls := [],
    pendingUrls := urls.foldl (fun m pageInfo => mapSet m pageInfo.url pageInfo) [] }

/-- One observable frontier operation: a worker-side admission of a
discovered link, or a batch drain by the orchestrator. -/
inductive FrontierOp where
  | enqueue (l : Link)
  | drain (limit : Nat)
deriving DecidableEq, Repr

/-- Apply one operation to (state, all records drained so far). -/
def frontierStep (acc : FrontierState × List PageRecord) :
    FrontierOp → FrontierState × List PageRecord
  | .enqueue l => (admitLink acc.1 l, acc.2)
  | .drain n => ((drainBatch acc.1 n).1, acc.2 ++ (drainBatch acc.1 n).2)

/-- Run a sequence of frontier operations. -/
def runOpsFrom (acc : FrontierState × List PageRecord) :
    List FrontierOp → FrontierState × List PageRecord
  | [] => acc
  | op :: rest => runOpsFrom (frontierStep acc op) rest

/-- Run a sequence of frontier operations from a state, with an initially
empty drain log. -/
def runOps (s : FrontierState) (ops : List FrontierOp) :
    FrontierState × List PageRecord :=
  runOpsFrom (s, []) ops

/-- The urls admitted over a run: the seed urls plus the url of every
worker-side admission. -/
def admittedUrls (seeds : List PageRecord) (ops : List FrontierOp) : List String :=
  seeds.map PageRecord.url ++ ops.filterMap (fun op =>
    match op with
    | .enqueue l => some l.url
    | .drain _ => none)

/-- The state invariant maintained by `crawlPages`: pending keys are
distinct, the visited set is duplicate-free, visited and pending are
disjoint, and every pending entry is keyed by its record's url. -/
def FrontierInv (s : FrontierState) : Prop :=
  (pendingKeys s).Nodup ∧ s.crawledUrls.Nodup ∧
  (∀ k ∈ pendingKeys s, k ∉ s.crawledUrls) ∧
  (∀ p ∈ s.pendingUrls, p.2.url = p.1)

instance (s : FrontierState) : Decidable (FrontierInv s) := by
  unfold FrontierInv; infer_instance

/-! ### The orchestrator loop (crawler.js:246-287) -/

/-- Processing of one drained batch (crawler.js:257-261): every record is
handed to `crawlSinglePage`, which reads the visited set and returns the
updated pending map; `web` stands for the renderer (one rendered document
per url) and `convert` for the markdown converter. -/
def processBatch (web : String → Except String RenderedPage)
    (convert : String → Except String String) (currentFramework : String)
    (s : FrontierState) (batch : List PageRecord) : FrontierState :=
  batch.foldl
    (fun st pageInfo =>
      { st with pendingUrls :=
          (crawlSinglePage (web pageInfo.url) convert pageInfo st.crawledUrls
            st.pendingUrls currentFramework).2 }) s

/-- The `while (pendingUrls.size > 0)` loop of `crawlPages`
(crawler.js:246-287), fuel-indexed: each iteration drains a batch of at
most 50 (`concurrentLimit`, crawler.js:242) and processes it; `some`
is the Done state (the loop exited with an empty pending map),
`none` means the fuel ran out first. -/
def crawlLoop (web : String → Except String RenderedPage)
    (convert : String → Except String String) (currentFramework : String) :
    Nat → FrontierState → Option FrontierState
  | 0, s => if s.pendingUrls.isEmpty then some s else none
  | fuel + 1, s =>
    if s.pendingUrls.isEmpty then some s
    else
      let dr := drainBatch s 50
      crawlLoop web convert currentFramework fuel
        (processBatch web convert currentFramework dr.1 dr.2)

/-- The result-folding loop at crawler.js:263-280 over the counters
`(successCount, errorCount, totalNewLinksFound)`. For a successful outcome
the artifact is written by a **discarded** `fs.writeFile` call (not
awaited, no rejection handler, crawler.js:270) and `successCount` is
incremented; otherwise `errorCount` is incremented and a non-zero
`newLinksFound` is accumulated. -/
def processResults (writeFile : String → String → Except String Unit)
    (outputDir : String) (results : List (CrawlOutcome × PageRecord))
    (successCount errorCount totalNewLinksFound : Nat) : Nat × Nat × Nat :=
  results.foldl
    (fun acc rp =>
      let result := rp.1
      if result.success then
        let _ := writeFile (outputDir ++ "/" ++ result.filename.getD "")
          (result.content.getD "")
        (acc.1 + 1, acc.2.1, acc.2.2 + result.newLinksFound)
      else
        (acc.1, acc.2.1 + 1,
          acc.2.2 + (if result.newLinksFound != 0 then result.newLinksFound else 0)))
    (successCount, errorCount, totalNewLinksFound)

/-! ### Seed collection (crawler.js:36-48) -/

/-- The `children.forEach((item, index) => ...)` block at crawler.js:37-48:
children with a `path` become seed records carrying their **raw position**
`index` in the children array (children without a path still consume an
index), `title: item.title || 'untitled'`, `type: item.type || 'unknown'`,
and the absolute url. -/
def collectValidUrls (children : List SeedChild) : List PageRecord :=
  children.enum.filterMap (fun ip =>
    match ip.2.path with
    | some p =>
      let t := ip.2.title.getD ""
      some { index := ip.1,
             title := if t == "" then "untitled" else t,
             type := (ip.2.type.getD "unknown"),
             path := some p,
             url := "https://developer.apple.com" ++ p }
    | none => none)

/-! ### Concrete instances used to evaluate the model -/

/-- A concrete record used to instantiate worker runs. -/
def samplePage : PageRecord :=
  { index := 0, title := "Foo", type := "topic", path := none,
    url := "https://developer.apple.com/documentation/foo" }

/-- A rendered page carrying one in-scope link and no extractable article. -/
def pageOneLink : RenderedPage :=
  { anchors := [("/documentation/foo/bar", "Bar")], article := none, titleTag := none }

/-- A rendered page with no anchors and no extractable article. -/
def pageNoAnchors : RenderedPage :=
  { anchors := [], article := none, titleTag := none }

/-- A rendered page with no anchors whose article extraction succeeds. -/
def pageWithArticle : RenderedPage :=
  { anchors := [], article := some { title := "T", content := "B" }, titleTag := none }

/-- A rendered page with two in-scope links and no extractable article. -/
def pageTwoLinks : RenderedPage :=
  { anchors := [("/documentation/foo/a", "A"), ("/documentation/foo/b", "B")],
    article := none, titleTag := none }

/-- Invariant carried along any run of frontier operations: the state
invariant, no duplicate drained url, drained urls live in the visited set,
and every admitted url is in one of the two collections. -/
def RunInv (admitted : List String) (acc : FrontierState × List PageRecord) : Prop :=
  FrontierInv acc.1 ∧ ((acc.2.map PageRecord.url).Nodup) ∧
  (∀ r ∈ acc.2, r.url ∈ acc.1.crawledUrls) ∧
  (∀ u ∈ admitted, u ∈ acc.1.crawledUrls ∨ u ∈ pendingKeys acc.1)

/-- A renderer for the termination witness: the seed page carries one
in-scope link; everything else times out. -/
def c3web (u : String) : Except String RenderedPage :=
  if u = samplePage.url then Except.ok pageOneLink else Except.error "timeout"

/-- The finite url universe of the termination witness. -/
def c3U : List String :=
  [samplePage.url, "https://developer.apple.com/documentation/foo/bar"]

/-- Seed children for the index-collision execution: the first child has no
`path` (it is skipped but still consumes position 0), so the only valid
seed record carries raw position index 1. -/
def c9children : List SeedChild :=
  [ { title := some "First", path := none, type := none },
    { title := some "Second", path := some "/documentation/foo/second", type := none } ]

/-- The single seed record produced from `c9children`, with index 1. -/
def c9seedRec : PageRecord :=
  { index := 1, title := "Second", type := "unknown",
    path := some "/documentation/foo/second",
    url := "https://developer.apple.com/documentation/foo/second" }

/-- The rendered seed page of the index-collision execution, carrying one
new in-scope link. -/
def c9page : RenderedPage :=
  { anchors := [("/documentation/foo/third", "Third")], article := none, titleTag := none }

/-- The record the worker admits for the discovered link: its index is
`crawledUrls.size + pendingUrls.size = 1 + 0 = 1` at the moment of
discovery. -/
def c9thirdRec : PageRecord :=
  { index := 1, title := "Third", type := "related", path := none,
    url := "https://developer.apple.com/documentation/foo/third" }

/-- A successful outcome whose artifact write will be attempted. -/
def c10outcome : CrawlOutcome :=
  { success := true, filename := some "000_Foo.md", content := some "# Foo",
    newLinksFound := 0 }

/-! ### Generic helper lemmas -/

lemma contains_eq_mem {l : List String} {x : String} :
    l.contains x = true ↔ x ∈ l := List.elem_iff

lemma char_toNat_ofNat {n : Nat} (h : n.isValidChar) : (Char.ofNat n).toNat = n := by
  unfold Char.ofNat
  rw [dif_pos h]
  rfl

lemma lowerChar_idem (c : Char) : lowerChar (lowerChar c) = lowerChar c := by
  unfold lowerChar
  by_cases h : 65 ≤ c.toNat ∧ c.toNat ≤ 90
  · have hb : (65 ≤ c.toNat && c.toNat ≤ 90) = true := by
      simp [h.1, h.2]
    rw [hb]
    simp only [if_true]
    have hv : Nat.isValidChar (c.toNat + 32) := by
      unfold Nat.isValidChar
      left; omega
    have ht : (Char.ofNat (c.toNat + 32)).toNat = c.toNat + 32 := char_toNat_ofNat hv
    have hb2 : (65 ≤ (Char.ofNat (c.toNat + 32)).toNat
        && (Char.ofNat (c.toNat + 32)).toNat ≤ 90) = false := by
      rw [ht]
      simp only [Bool.and_eq_false_iff, decide_eq_false_iff_not]
      right
      omega
    rw [hb2]
    simp
  · have hb : (65 ≤ c.toNat && c.toNat ≤ 90) = false := by
      rcases Decidable.em (65 ≤ c.toNat) with h1 | h1
      · simp only [Bool.and_eq_false_iff, decide_eq_false_iff_not]
        right; omega
      · simp only [Bool.and_eq_false_iff, decide_eq_false_iff_not]
        left; omega
    rw [hb]
    simp only [Bool.false_eq_true, if_false]
    rw [hb]
    simp

lemma toLowerStr_idem (s : String) : toLowerStr (toLowerStr s) = toLowerStr s := by
  unfold toLowerStr
  apply congrArg String.mk
  show (s.data.map lowerChar).map lowerChar = s.data.map lowerChar
  rw [List.map_map]
  exact List.map_congr_left (fun c _ => lowerChar_idem c)

lemma keepChar_not_illegal {c : Char} (h : keepChar c = true) : illegalChar c = false := by
  simp only [keepChar, wordChar, Bool.or_eq_true, Bool.and_eq_true,
    decide_eq_true_eq] at h
  simp only [illegalChar, Bool.or_eq_false_iff, decide_eq_false_iff_not]
  omega

lemma keepChar_not_ws {c : Char} (h : keepChar c = true) : jsWhitespace c = false := by
  simp only [keepChar, wordChar, Bool.or_eq_true, Bool.and_eq_true,
    decide_eq_true_eq] at h
  simp only [jsWhitespace, Bool.or_eq_false_iff, Bool.and_eq_false_iff,
    decide_eq_false_iff_not]
  omega

/-- C8: for every input title, `sanitizeFilename(title)` contains no
character from the set of illegal filename characters, no whitespace
character, only word characters / `-` / `_` / `.`, and is at most 100
characters long. -/
theorem sanitize_filename_postconditions (title : String) :
    ((sanitizeFilename title).data.all
      (fun c => !(illegalChar c) && !(jsWhitespace c) && keepChar c)) = true ∧
    (sanitizeFilename title).length ≤ 100 := by
  constructor
  · rw [List.all_eq_true]
    intro c hc
    have hc' : c ∈ (collapseWsAux false
        (title.data.map (fun c => if illegalChar c then '-' else c))).filter keepChar := by
      have hsub := List.take_sublist 100
        ((collapseWsAux false
          (title.data.map (fun c => if illegalChar c then '-' else c))).filter keepChar)
      exact hsub.subset hc
    have hkeep : keepChar c = true := (List.mem_filter.1 hc').2
    rw [keepChar_not_illegal hkeep, keepChar_not_ws hkeep, hkeep]
    rfl
  · show ((((collapseWsAux false
        (title.data.map (fun c => if illegalChar c then '-' else c))).filter
          keepChar).take 100)).length ≤ 100
    exact List.length_take_le 100 _

/-- C4 (counterexample): the claim asserts that for namespace `"Foo"` the
link `"/documentation/Foo/bar"` is in scope; in the program the
orchestrator lower-cases the namespace before the workers test it
(crawler.js:239), and the substring test is case-sensitive, so that link
is NOT in scope (while `"/documentation/foo/bar"` is). -/
theorem scope_filter_counterexample :
    inScopeInvoked "/documentation/Foo/bar" "Foo" = false ∧
    findRelatedLinks [("/documentation/Foo/bar", "bar")] (toLowerStr "Foo") = [] ∧
    inScopeInvoked "/documentation/foo/bar" "Foo" = true := by
  refine ⟨by decide, ?_, by decide⟩
  decide

/-- C4 (amended): after the orchestrator lower-cases the namespace token,
a discovered link is in scope iff it contains `/documentation/` and its
resolved URL contains `/documentation/` followed by the lower-cased
namespace and `/` — a case-sensitive comparison against the lower-cased
token, so `/documentation/foo/bar` is in scope for namespace `Foo` while
`/documentation/Foo/bar` is not. -/
theorem scope_filter_lowercase (href ns : String) :
    inScopeInvoked href ns =
      (substrOf "/documentation/" href &&
        substrOf ("/documentation/" ++ toLowerStr ns ++ "/") (resolveHref href)) ∧
    inScopeInvoked "/documentation/foo/bar" "Foo" = true ∧
    inScopeInvoked "/documentation/Foo/bar" "Foo" = false := by
  refine ⟨?_, by decide, by decide⟩
  unfold inScopeInvoked linkInScope
  rw [toLowerStr_idem, Bool.or_self]

/-! ### The admission block: specification lemma -/

lemma admitLinks_spec (c : List String) :
    ∀ (ls : List Link) (q : List (String × PageRecord)),
    ∃ tail,
      admitLinks ls c q = (q ++ tail, tail.length) ∧
      (∀ p ∈ tail, p.1 ∉ c ∧ (∃ l ∈ ls, l.url = p.1) ∧ p.2.url = p.1) ∧
      ((q.map Prod.fst).Nodup → ((q ++ tail).map Prod.fst).Nodup) ∧
      (∀ l ∈ ls, l.url ∉ c → l.url ∈ (q ++ tail).map Prod.fst) := by
  intro ls
  induction ls with
  | nil =>
    intro q
    refine ⟨[], by simp [admitLinks], by simp, fun hn => by simpa using hn, by simp⟩
  | cons l ls ih =>
    intro q
    by_cases h1 : l.url ∈ c
    · have hcond : (!(c.contains l.url)
          && !((q.map Prod.fst).contains l.url)) = false := by
        rw [contains_eq_mem.2 h1]
        rfl
      obtain ⟨tail, heq, hmem, hnd, hcov⟩ := ih q
      refine ⟨tail, ?_, ?_, hnd, ?_⟩
      · rw [admitLinks, hcond]
        simpa using heq
      · intro p hp
        obtain ⟨hpc, ⟨l', hl', hurl⟩, hkv⟩ := hmem p hp
        exact ⟨hpc, ⟨l', List.mem_cons_of_mem _ hl', hurl⟩, hkv⟩
      · intro l' hl' hnc
        rcases List.mem_cons.1 hl' with rfl | hl'
        · exact absurd h1 hnc
        · exact hcov l' hl' hnc
    · by_cases h2 : l.url ∈ q.map Prod.fst
      · have hcond : (!(c.contains l.url)
            && !((q.map Prod.fst).contains l.url)) = false := by
          rw [contains_eq_mem.2 h2]
          simp
        obtain ⟨tail, heq, hmem, hnd, hcov⟩ := ih q
        refine ⟨tail, ?_, ?_, hnd, ?_⟩
        · rw [admitLinks, hcond]
          simpa using heq
        · intro p hp
          obtain ⟨hpc, ⟨l', hl', hurl⟩, hkv⟩ := hmem p hp
          exact ⟨hpc, ⟨l', List.mem_cons_of_mem _ hl', hurl⟩, hkv⟩
        · intro l' hl' hnc
          rcases List.mem_cons.1 hl' with rfl | hl'
          · rw [List.map_append]
            exact List.mem_append_left _ h2
          · exact hcov l' hl' hnc
      · have hc1 : c.contains l.url = false :=
          Bool.eq_false_iff.2 (fun hc => h1 (contains_eq_mem.1 hc))
        have hc2 : (q.map Prod.fst).contains l.url = false :=
          Bool.eq_false_iff.2 (fun hq => h2 (contains_eq_mem.1 hq))
        have hcond : (!(c.contains l.url)
            && !((q.map Prod.fst).contains l.url)) = true := by
          rw [hc1, hc2]
          rfl
        set e : String × PageRecord := (l.url,
          { url := l.url, title := l.title, type := l.type, path := none,
            index := c.length + q.length }) with he
        obtain ⟨tail, heq, hmem, hnd, hcov⟩ := ih (q ++ [e])
        refine ⟨e :: tail, ?_, ?_, ?_, ?_⟩
        · rw [admitLinks, hcond]
          simp only [if_true]
          rw [heq]
          simp [List.append_assoc]
        · intro p hp
          rcases List.mem_cons.1 hp with rfl | hp
          · exact ⟨h1, ⟨l, List.mem_cons_self _ _, rfl⟩, rfl⟩
          · obtain ⟨hpc, ⟨l', hl', hurl⟩, hkv⟩ := hmem p hp
            exact ⟨hpc, ⟨l', List.mem_cons_of_mem _ hl', hurl⟩, hkv⟩
        · intro hq
          have hq' : ((q ++ [e]).map Prod.fst).Nodup := by
            rw [List.map_append]
            refine List.Nodup.append hq (by simp) ?_
            intro x hx hx'
            simp only [List.map_cons, List.map_nil, List.mem_singleton] at hx'
            subst hx'
            exact h2 hx
          have := hnd hq'
          rwa [List.append_assoc] at this
        · intro l' hl' hnc
          have hkey : l.url ∈ ((q ++ [e]) ++ tail).map Prod.fst := by
            rw [List.map_append, List.map_append]
            exact List.mem_append_left _ (List.mem_append_right _ (by simp [he]))
          rcases List.mem_cons.1 hl' with rfl | hl'
          · rwa [List.append_assoc] at hkey
          · have := hcov l' hl' hnc
            rwa [List.append_assoc] at this

/-! ### crawlSinglePage: the pending-map effect -/

lemma crawlSinglePage_pending_eq (rendered : Except String RenderedPage)
    (convert : String → Except String String) (pageInfo : PageRecord)
    (crawledUrls : List String) (pendingUrls : List (String × PageRecord)) (fw : String) :
    (crawlSinglePage rendered convert pageInfo crawledUrls pendingUrls fw).2 =
      match rendered with
      | .error _ => pendingUrls
      | .ok page =>
        (admitLinks (findRelatedLinks page.anchors fw) crawledUrls pendingUrls).1 := by
  cases rendered with
  | error e => rfl
  | ok page =>
    rcases page with ⟨anchors, article, titleTag⟩
    cases article with
    | none => rfl
    | some art =>
      cases hconv : convert art.content with
      | error e => simp [crawlSinglePage, hconv]
      | ok md => simp [crawlSinglePage, hconv]

/-- C5 (counterexample): the claim says a Page Worker never mutates the
Frontier state; but `crawlSinglePage` writes discovered links into the
shared `pendingUrls` map itself (crawler.js:157-167) — here a worker run
on empty pending state returns a non-empty pending map. -/
theorem worker_mutation_counterexample :
    (crawlSinglePage (Except.ok pageOneLink) Except.ok samplePage [] [] "foo").2 ≠ [] := by
  decide

/-- C5 (amended): the Page Worker reads the visited set but mutates the
pending map directly: its only effect on the Frontier is to append, to the
pending map it was handed, admission entries for in-scope links of its own
rendered page that are not already visited; on a render failure the
pending map is returned unchanged. (Persisting artifacts remains the
orchestrator's job.) -/
theorem worker_admits_links_directly (rendered : Except String RenderedPage)
    (convert : String → Except String String) (pageInfo : PageRecord)
    (crawledUrls : List String) (pendingUrls : List (String × PageRecord))
    (fw : String) :
    ∃ tail,
      (crawlSinglePage rendered convert pageInfo crawledUrls pendingUrls fw).2
        = pendingUrls ++ tail ∧
      (∀ p ∈ tail, p.1 ∉ crawledUrls ∧
        ∃ page, rendered = Except.ok page ∧
          ∃ l ∈ findRelatedLinks page.anchors fw, l.url = p.1) := by
  rw [crawlSinglePage_pending_eq]
  cases rendered with
  | error e => exact ⟨[], by simp, by simp⟩
  | ok page =>
    obtain ⟨tail, heq, hmem, -, -⟩ :=
      admitLinks_spec crawledUrls (findRelatedLinks page.anchors fw) pendingUrls
    refine ⟨tail, ?_, ?_⟩
    · show (admitLinks (findRelatedLinks page.anchors fw) crawledUrls pendingUrls).1
          = pendingUrls ++ tail
      rw [heq]
    · intro p hp
      obtain ⟨hpc, ⟨l, hl, hurl⟩, -⟩ := hmem p hp
      exact ⟨hpc, page, rfl, l, hl, hurl⟩

theorem worker_admits_links_directly_witness :
    ∃ tail,
      (crawlSinglePage (Except.ok pageOneLink) Except.ok samplePage [] [] "foo").2
        = [] ++ tail ∧
      (∀ p ∈ tail, p.1 ∉ ([] : List String) ∧
        ∃ page, (Except.ok pageOneLink : Except String RenderedPage) = Except.ok page ∧
          ∃ l ∈ findRelatedLinks page.anchors "foo", l.url = p.1) :=
  worker_admits_links_directly (Except.ok pageOneLink) Except.ok samplePage [] [] "foo"

/-- C6: every failure of a collaborator inside the worker is contained at
the worker boundary and becomes a `success := false` outcome with the
corresponding message — a render error reproduces the catch clause at
crawler.js:203-205 (`newLinksFound: 0`), a null Readability article gives
the `'Unable to extract content'` outcome of crawler.js:200, and a
conversion error again reaches the catch clause. The worker is a total
function: it always returns an outcome, so a per-page failure never
escapes into the batch loop. -/
theorem worker_error_containment (convert : String → Except String String)
    (pageInfo : PageRecord) (crawledUrls : List String)
    (pendingUrls : List (String × PageRecord)) (fw : String)
    (e : String) (page : RenderedPage) (art : Article) :
    ((crawlSinglePage (Except.error e) convert pageInfo crawledUrls pendingUrls fw).1
        = { success := false, error := some e, newLinksFound := 0 } ∧
      (crawlSinglePage (Except.error e) convert pageInfo crawledUrls pendingUrls fw).2
        = pendingUrls) ∧
    (page.article = none →
      (crawlSinglePage (Except.ok page) convert pageInfo crawledUrls pendingUrls fw).1.success
          = false ∧
      (crawlSinglePage (Except.ok page) convert pageInfo crawledUrls pendingUrls fw).1.error
          = some "Unable to extract content") ∧
    (page.article = some art → convert art.content = Except.error e →
      (crawlSinglePage (Except.ok page) convert pageInfo crawledUrls pendingUrls fw).1.success
          = false ∧
      (crawlSinglePage (Except.ok page) convert pageInfo crawledUrls pendingUrls fw).1.error
          = some e) := by
  refine ⟨⟨rfl, rfl⟩, ?_, ?_⟩
  · intro hart
    rcases page with ⟨anchors, article, titleTag⟩
    cases hart
    exact ⟨rfl, rfl⟩
  · intro hart hconv
    rcases page with ⟨anchors, article, titleTag⟩
    cases hart
    constructor <;> simp [crawlSinglePage, hconv]

theorem worker_error_containment_witness :
    ((crawlSinglePage (Except.error "net::ERR_TIMED_OUT") Except.ok samplePage [] [] "foo").1
        = { success := false, error := some "net::ERR_TIMED_OUT", newLinksFound := 0 } ∧
      (crawlSinglePage (Except.error "net::ERR_TIMED_OUT") Except.ok samplePage [] [] "foo").2
        = []) ∧
    ((crawlSinglePage (Except.ok pageNoAnchors) Except.ok samplePage [] [] "foo").1.success
        = false ∧
      (crawlSinglePage (Except.ok pageNoAnchors) Except.ok samplePage [] [] "foo").1.error
        = some "Unable to extract content") ∧
    ((crawlSinglePage (Except.ok pageWithArticle)
        (fun _ => Except.error "turndown failed") samplePage [] [] "foo").1.success = false ∧
      (crawlSinglePage (Except.ok pageWithArticle)
        (fun _ => Except.error "turndown failed") samplePage [] [] "foo").1.error
        = some "turndown failed") := by
  refine ⟨?_, ?_, ?_⟩
  · exact (worker_error_containment Except.ok samplePage [] [] "foo" "net::ERR_TIMED_OUT"
      pageNoAnchors { title := "T", content := "B" }).1
  · exact (worker_error_containment Except.ok samplePage [] [] "foo" "net::ERR_TIMED_OUT"
      pageNoAnchors { title := "T", content := "B" }).2.1 rfl
  · exact (worker_error_containment (fun _ => Except.error "turndown failed") samplePage
      [] [] "foo" "turndown failed" pageWithArticle { title := "T", content := "B" }).2.2
      rfl rfl

/-- C7: when a page renders but Readability returns null, the outcome is
the extraction-failure object (success false, `'Unable to extract
content'`, no filename and no content, i.e. no artifact), yet every
in-scope link of the page that is not already visited ends up in the
pending map — link harvesting happens before content extraction
(crawler.js:151-167) — and `newLinksFound` counts exactly the entries the
worker appended to the pending map. -/
theorem extraction_failure_still_harvests (convert : String → Except String String)
    (pageInfo : PageRecord) (crawledUrls : List String)
    (pendingUrls : List (String × PageRecord)) (fw : String)
    (anchors : List (String × String)) (titleTag : Option String) :
    (crawlSinglePage (Except.ok { anchors := anchors, article := none, titleTag := titleTag })
        convert pageInfo crawledUrls pendingUrls fw).1.success = false ∧
    (crawlSinglePage (Except.ok { anchors := anchors, article := none, titleTag := titleTag })
        convert pageInfo crawledUrls pendingUrls fw).1.error
      = some "Unable to extract content" ∧
    (crawlSinglePage (Except.ok { anchors := anchors, article := none, titleTag := titleTag })
        convert pageInfo crawledUrls pendingUrls fw).1.filename = none ∧
    (crawlSinglePage (Except.ok { anchors := anchors, article := none, titleTag := titleTag })
        convert pageInfo crawledUrls pendingUrls fw).1.content = none ∧
    (∀ l ∈ findRelatedLinks anchors fw, l.url ∉ crawledUrls →
      l.url ∈ ((crawlSinglePage
        (Except.ok { anchors := anchors, article := none, titleTag := titleTag })
        convert pageInfo crawledUrls pendingUrls fw).2).map Prod.fst) ∧
    ((crawlSinglePage (Except.ok { anchors := anchors, article := none, titleTag := titleTag })
        convert pageInfo crawledUrls pendingUrls fw).2).length
      = pendingUrls.length
        + (crawlSinglePage (Except.ok { anchors := anchors, article := none, titleTag := titleTag })
            convert pageInfo crawledUrls pendingUrls fw).1.newLinksFound := by
  obtain ⟨tail, heq, hmem, hnd, hcov⟩ :=
    admitLinks_spec crawledUrls (findRelatedLinks anchors fw) pendingUrls
  have h2 : (crawlSinglePage
      (Except.ok { anchors := anchors, article := none, titleTag := titleTag })
      convert pageInfo crawledUrls pendingUrls fw).2 = pendingUrls ++ tail := by
    rw [crawlSinglePage_pending_eq]
    show (admitLinks (findRelatedLinks anchors fw) crawledUrls pendingUrls).1
        = pendingUrls ++ tail
    rw [heq]
  have h1 : (crawlSinglePage
      (Except.ok { anchors := anchors, article := none, titleTag := titleTag })
      convert pageInfo crawledUrls pendingUrls fw).1
      = { success := false, error := some "Unable to extract content",
          newLinksFound := (admitLinks (findRelatedLinks anchors fw) crawledUrls pendingUrls).2 } := rfl
  refine ⟨by rw [h1], by rw [h1], by rw [h1], by rw [h1], ?_, ?_⟩
  · intro l hl hnc
    rw [h2]
    exact hcov l hl hnc
  · rw [h1, h2, heq]
    simp

theorem extraction_failure_still_harvests_witness :
    (crawlSinglePage (Except.ok pageTwoLinks) Except.ok samplePage [] [] "foo").1.success
        = false ∧
    "https://developer.apple.com/documentation/foo/a"
      ∈ ((crawlSinglePage (Except.ok pageTwoLinks)
          Except.ok samplePage [] [] "foo").2).map Prod.fst ∧
    "https://developer.apple.com/documentation/foo/b"
      ∈ ((crawlSinglePage (Except.ok pageTwoLinks)
          Except.ok samplePage [] [] "foo").2).map Prod.fst := by
  have h := extraction_failure_still_harvests Except.ok samplePage [] [] "foo"
    [("/documentation/foo/a", "A"), ("/documentation/foo/b", "B")] none
  refine ⟨h.1, ?_, ?_⟩
  · exact h.2.2.2.2.1
      { url := "https://developer.apple.com/documentation/foo/a",
        title := "A", type := "related" }
      (by decide) (by decide)
  · exact h.2.2.2.2.1
      { url := "https://developer.apple.com/documentation/foo/b",
        title := "B", type := "related" }
      (by decide) (by decide)

/-! ### Frontier lemmas -/

lemma mem_setAdd {l : List String} {x y : String} :
    y ∈ setAdd l x ↔ y ∈ l ∨ y = x := by
  unfold setAdd
  split
  · rename_i h
    constructor
    · exact Or.inl
    · rintro (hy | rfl)
      · exact hy
      · exact contains_eq_mem.1 h
  · simp

lemma setAdd_nodup {l : List String} {x : String} (h : l.Nodup) : (setAdd l x).Nodup := by
  unfold setAdd
  split
  · exact h
  · rename_i hc
    refine List.Nodup.append h (by simp) ?_
    intro a ha ha'
    simp only [List.mem_singleton] at ha'
    subst ha'
    exact hc (contains_eq_mem.2 ha)

lemma foldl_setAdd_append (us : List String) :
    ∀ (c : List String), us.Nodup → (∀ u ∈ us, u ∉ c) →
      us.foldl setAdd c = c ++ us := by
  induction us with
  | nil => intro c _ _; simp
  | cons u us ih =>
    intro c hnd hdis
    have hu : u ∉ c := hdis u (List.mem_cons_self _ _)
    have hstep : setAdd c u = c ++ [u] := by
      unfold setAdd
      rw [if_neg (fun hc => hu (contains_eq_mem.1 hc))]
    show us.foldl setAdd (setAdd c u) = c ++ u :: us
    rw [hstep, ih (c ++ [u]) (List.nodup_cons.1 hnd).2 ?_, List.append_assoc]
    · rfl
    · intro v hv hvc
      rcases List.mem_append.1 hvc with hvc | hvc
      · exact hdis v (List.mem_cons_of_mem _ hv) hvc
      · simp only [List.mem_singleton] at hvc
        subst hvc
        exact (List.nodup_cons.1 hnd).1 hv

lemma drainFold_crawled (b : List PageRecord) :
    ∀ st, (b.foldl drainStep st).crawledUrls
      = (b.map PageRecord.url).foldl setAdd st.crawledUrls := by
  induction b with
  | nil => intro st; rfl
  | cons r b ih =>
    intro st
    show (b.foldl drainStep (drainStep st r)).crawledUrls = _
    rw [ih]
    rfl

lemma drainFold_pending (b : List PageRecord) :
    ∀ st, (b.foldl drainStep st).pendingUrls
      = st.pendingUrls.filter (fun p => !((b.map PageRecord.url).contains p.1)) := by
  induction b with
  | nil =>
    intro st
    show st.pendingUrls = st.pendingUrls.filter
      (fun p => !((([] : List PageRecord).map PageRecord.url).contains p.1))
    exact (List.filter_eq_self.2 (fun a _ => rfl)).symm
  | cons r b ih =>
    intro st
    show (b.foldl drainStep (drainStep st r)).pendingUrls = _
    rw [ih]
    show (st.pendingUrls.filter (fun p => !(p.1 == r.url))).filter
        (fun p => !((b.map PageRecord.url).contains p.1)) = _
    rw [List.filter_filter]
    apply List.filter_congr
    intro p _
    show (!((b.map PageRecord.url).contains p.1) && !(p.1 == r.url))
        = !((r.url :: b.map PageRecord.url).contains p.1)
    rw [List.contains_cons, Bool.not_or, Bool.and_comm]

lemma batch_urls_eq_keys (s : FrontierState) (limit : Nat)
    (hkv : ∀ p ∈ s.pendingUrls, p.2.url = p.1) :
    ((s.pendingUrls.map Prod.snd).take limit).map PageRecord.url
      = (pendingKeys s).take limit := by
  rw [List.map_take, List.map_map]
  unfold pendingKeys
  exact congrArg (List.take limit) (List.map_congr_left (fun p hp => hkv p hp))

lemma drainBatch_char (s : FrontierState) (limit : Nat) (hinv : FrontierInv s) :
    (drainBatch s limit).1.crawledUrls = s.crawledUrls ++ (pendingKeys s).take limit ∧
    (drainBatch s limit).1.pendingUrls = s.pendingUrls.drop limit ∧
    ((drainBatch s limit).2).map PageRecord.url = (pendingKeys s).take limit := by
  obtain ⟨hnd, hcnd, hdis, hkv⟩ := hinv
  have hurls : ((s.pendingUrls.map Prod.snd).take limit).map PageRecord.url
      = (pendingKeys s).take limit := batch_urls_eq_keys s limit hkv
  have htake_nodup : ((pendingKeys s).take limit).Nodup :=
    (List.take_sublist _ _).nodup hnd
  refine ⟨?_, ?_, hurls⟩
  · show ((s.pendingUrls.map Prod.snd).take limit |>.foldl drainStep s).crawledUrls = _
    rw [drainFold_crawled, hurls]
    apply foldl_setAdd_append _ _ htake_nodup
    intro u hu
    exact hdis u ((List.take_sublist _ _).subset hu)
  · show ((s.pendingUrls.map Prod.snd).take limit |>.foldl drainStep s).pendingUrls = _
    rw [drainFold_pending, hurls]
    have hsplit : s.pendingUrls = s.pendingUrls.take limit ++ s.pendingUrls.drop limit :=
      (List.take_append_drop _ _).symm
    nth_rewrite 1 [hsplit]
    rw [List.filter_append]
    have h1 : (s.pendingUrls.take limit).filter
        (fun p => !(((pendingKeys s).take limit).contains p.1)) = [] := by
      rw [List.filter_eq_nil_iff]
      intro p hp hcon
      have : p.1 ∈ (pendingKeys s).take limit := by
        unfold pendingKeys
        rw [← List.map_take]
        exact List.mem_map_of_mem _ hp
      rw [contains_eq_mem.2 this] at hcon
      simp at hcon
    have h2 : (s.pendingUrls.drop limit).filter
        (fun p => !(((pendingKeys s).take limit).contains p.1)) = s.pendingUrls.drop limit := by
      rw [List.filter_eq_self]
      intro p hp
      have hmem : p.1 ∈ (pendingKeys s).drop limit := by
        unfold pendingKeys
        rw [← List.map_drop]
        exact List.mem_map_of_mem _ hp
      have hnot : p.1 ∉ (pendingKeys s).take limit := by
        have := hnd
        rw [show pendingKeys s = (pendingKeys s).take limit ++ (pendingKeys s).drop limit from
          (List.take_append_drop _ _).symm, List.nodup_append] at this
        intro hcon
        exact this.2.2 hcon hmem
      rw [Bool.eq_false_iff.2 (fun hc => hnot (contains_eq_mem.1 hc))]
      rfl
    rw [h1, h2, List.nil_append]

lemma drainBatch_inv (s : FrontierState) (limit : Nat) (hinv : FrontierInv s) :
    FrontierInv (drainBatch s limit).1 := by
  obtain ⟨hc, hp, -⟩ := drainBatch_char s limit hinv
  obtain ⟨hnd, hcnd, hdis, hkv⟩ := hinv
  have hnodup_split := hnd
  rw [show pendingKeys s = (pendingKeys s).take limit ++ (pendingKeys s).drop limit from
    (List.take_append_drop _ _).symm, List.nodup_append] at hnodup_split
  refine ⟨?_, ?_, ?_, ?_⟩
  · unfold pendingKeys at hnd ⊢
    rw [hp, List.map_drop]
    exact (List.drop_sublist _ _).nodup hnd
  · rw [hc]
    refine List.Nodup.append hcnd ((List.take_sublist _ _).nodup hnd) ?_
    intro a ha ha'
    exact hdis a ((List.take_sublist _ _).subset ha') ha
  · intro k hk
    have hkdrop : k ∈ (pendingKeys s).drop limit := by
      unfold pendingKeys at hk ⊢
      rw [hp] at hk
      rw [← List.map_drop]
      exact hk
    have hks : k ∈ pendingKeys s := (List.drop_sublist _ _).subset hkdrop
    rw [hc]
    intro hkc
    rcases List.mem_append.1 hkc with hkc | hkt
    · exact hdis k hks hkc
    · exact hnodup_split.2.2 hkt hkdrop
  · intro p hp'
    rw [hp] at hp'
    exact hkv p ((List.drop_sublist _ _).subset hp')

/-! ### admitLink and seeding lemmas -/

lemma admitLink_crawled (s : FrontierState) (l : Link) :
    (admitLink s l).crawledUrls = s.crawledUrls := by
  unfold admitLink
  split <;> rfl

lemma admitLink_keys_cases (s : FrontierState) (l : Link) :
    pendingKeys (admitLink s l) = pendingKeys s ∨
    (pendingKeys (admitLink s l) = pendingKeys s ++ [l.url] ∧
      l.url ∉ s.crawledUrls ∧ l.url ∉ pendingKeys s) := by
  unfold admitLink
  split
  · rename_i h
    rw [Bool.and_eq_true, Bool.not_eq_eq_eq_not, Bool.not_eq_eq_eq_not] at h
    right
    refine ⟨?_, fun hc => by rw [contains_eq_mem.2 hc] at h; exact absurd h.1 (by simp),
      fun hq => by rw [contains_eq_mem.2 hq] at h; exact absurd h.2 (by simp)⟩
    unfold pendingKeys
    simp
  · left
    rfl

lemma admitLink_inv (s : FrontierState) (l : Link) (hinv : FrontierInv s) :
    FrontierInv (admitLink s l) := by
  obtain ⟨hnd, hcnd, hdis, hkv⟩ := hinv
  rcases admitLink_keys_cases s l with hk | ⟨hk, hlc, hlq⟩
  · have hpend : (admitLink s l).pendingUrls = s.pendingUrls ∨
        (admitLink s l).pendingUrls = s.pendingUrls ++ [(l.url,
          { url := l.url, title := l.title, type := l.type, path := none,
            index := s.crawledUrls.length + s.pendingUrls.length })] := by
      unfold admitLink
      split
      · right; rfl
      · left; rfl
    rcases hpend with hp | hp
    · exact ⟨by rw [show pendingKeys (admitLink s l) = pendingKeys s from hk]; exact hnd, by
        rw [admitLink_crawled]; exact hcnd, by
        rw [show pendingKeys (admitLink s l) = pendingKeys s from hk, admitLink_crawled]
        exact hdis, by rw [hp]; exact hkv⟩
    · have : pendingKeys (admitLink s l) = pendingKeys s ++ [l.url] := by
        unfold pendingKeys
        rw [hp, List.map_append]
        rfl
      rw [hk] at this
      have hlen : (pendingKeys s).length = (pendingKeys s).length + 1 := by
        conv_lhs => rw [this]
        simp
      omega
  · have hpend : (admitLink s l).pendingUrls = s.pendingUrls ++ [(l.url,
        { url := l.url, title := l.title, type := l.type, path := none,
          index := s.crawledUrls.length + s.pendingUrls.length })] := by
      unfold admitLink
      split
      · rfl
      · rename_i h
        exfalso
        apply h
        rw [Bool.eq_false_iff.2 (fun hc => hlc (contains_eq_mem.1 hc)),
          Bool.eq_false_iff.2 (fun hq => hlq (contains_eq_mem.1 hq))]
        rfl
    refine ⟨?_, ?_, ?_, ?_⟩
    · rw [hk]
      refine List.Nodup.append hnd (by simp) ?_
      intro a ha ha'
      simp only [List.mem_singleton] at ha'
      subst ha'
      exact hlq ha
    · rw [admitLink_crawled]
      exact hcnd
    · intro k hkmem
      rw [admitLink_crawled]
      rw [hk] at hkmem
      rcases List.mem_append.1 hkmem with hkmem | hkmem
      · exact hdis k hkmem
      · simp only [List.mem_singleton] at hkmem
        subst hkmem
        exact hlc
    · intro p hpmem
      rw [hpend] at hpmem
      rcases List.mem_append.1 hpmem with hpmem | hpmem
      · exact hkv p hpmem
      · simp only [List.mem_singleton] at hpmem
        subst hpmem
        rfl

lemma admitLink_covered (s : FrontierState) (l : Link) :
    l.url ∈ (admitLink s l).crawledUrls ∨ l.url ∈ pendingKeys (admitLink s l) := by
  by_cases hc : l.url ∈ s.crawledUrls
  · left
    rw [admitLink_crawled]
    exact hc
  · by_cases hq : l.url ∈ pendingKeys s
    · right
      rcases admitLink_keys_cases s l with hk | ⟨hk, -, -⟩
      · rw [hk]; exact hq
      · rw [hk]; exact List.mem_append_left _ hq
    · right
      have hpend : (admitLink s l).pendingUrls = s.pendingUrls ++ [(l.url,
          { url := l.url, title := l.title, type := l.type, path := none,
            index := s.crawledUrls.length + s.pendingUrls.length })] := by
        unfold admitLink
        split
        · rfl
        · rename_i h
          exfalso
          apply h
          rw [Bool.eq_false_iff.2 (fun hx => hc (contains_eq_mem.1 hx)),
            Bool.eq_false_iff.2 (fun hx => hq (contains_eq_mem.1 hx))]
          rfl
      unfold pendingKeys
      rw [hpend, List.map_append]
      exact List.mem_append_right _ (by simp)

lemma admitLink_keys_mono (s : FrontierState) (l : Link) :
    pendingKeys s ⊆ pendingKeys (admitLink s l) := by
  rcases admitLink_keys_cases s l with hk | ⟨hk, -, -⟩
  · rw [hk]
    exact fun a ha => ha
  · rw [hk]
    exact fun a ha => List.mem_append_left _ ha

lemma mapSet_keys_replace (m : List (String × PageRecord)) (k : String) (v : PageRecord)
    (h : (m.map Prod.fst).contains k = true) :
    (mapSet m k v).map Prod.fst = m.map Prod.fst := by
  unfold mapSet
  rw [if_pos h, List.map_map]
  apply List.map_congr_left
  intro p _
  show (if p.1 == k then (k, v) else p).1 = p.1
  split
  · rename_i hbeq
    exact (beq_iff_eq.1 hbeq).symm
  · rfl

lemma mapSet_keys_append (m : List (String × PageRecord)) (k : String) (v : PageRecord)
    (h : ¬ (m.map Prod.fst).contains k = true) :
    (mapSet m k v).map Prod.fst = m.map Prod.fst ++ [k] := by
  unfold mapSet
  rw [if_neg h, List.map_append]
  rfl

lemma mapSet_mem_keys (m : List (String × PageRecord)) (k : String) (v : PageRecord) :
    k ∈ (mapSet m k v).map Prod.fst := by
  by_cases h : (m.map Prod.fst).contains k = true
  · rw [mapSet_keys_replace m k v h]
    exact contains_eq_mem.1 h
  · rw [mapSet_keys_append m k v h]
    exact List.mem_append_right _ (by simp)

lemma mapSet_keys_mono (m : List (String × PageRecord)) (k : String) (v : PageRecord) :
    m.map Prod.fst ⊆ (mapSet m k v).map Prod.fst := by
  by_cases h : (m.map Prod.fst).contains k = true
  · rw [mapSet_keys_replace m k v h]
    exact fun a ha => ha
  · rw [mapSet_keys_append m k v h]
    exact fun a ha => List.mem_append_left _ ha

lemma mapSet_keys_nodup (m : List (String × PageRecord)) (k : String) (v : PageRecord)
    (h : (m.map Prod.fst).Nodup) : ((mapSet m k v).map Prod.fst).Nodup := by
  by_cases hc : (m.map Prod.fst).contains k = true
  · rw [mapSet_keys_replace m k v hc]
    exact h
  · rw [mapSet_keys_append m k v hc]
    refine List.Nodup.append h (by simp) ?_
    intro a ha ha'
    simp only [List.mem_singleton] at ha'
    subst ha'
    exact hc (contains_eq_mem.2 ha)

lemma mapSet_keys_sub (m : List (String × PageRecord)) (k : String) (v : PageRecord) :
    ∀ x ∈ (mapSet m k v).map Prod.fst, x ∈ m.map Prod.fst ∨ x = k := by
  intro x hx
  by_cases hc : (m.map Prod.fst).contains k = true
  · rw [mapSet_keys_replace m k v hc] at hx
    exact Or.inl hx
  · rw [mapSet_keys_append m k v hc] at hx
    rcases List.mem_append.1 hx with hx | hx
    · exact Or.inl hx
    · simp only [List.mem_singleton] at hx
      exact Or.inr hx

lemma mapSet_kv (m : List (String × PageRecord)) (k : String) (v : PageRecord)
    (hm : ∀ p ∈ m, p.2.url = p.1) (hv : v.url = k) :
    ∀ p ∈ mapSet m k v, p.2.url = p.1 := by
  intro p hp
  unfold mapSet at hp
  split at hp
  · rcases List.mem_map.1 hp with ⟨q, hq, hqe⟩
    by_cases hqk : (q.1 == k) = true
    · rw [if_pos hqk] at hqe
      subst hqe
      exact hv
    · rw [if_neg hqk] at hqe
      subst hqe
      exact hm q hq
  · rcases List.mem_append.1 hp with hp | hp
    · exact hm p hp
    · simp only [List.mem_singleton] at hp
      subst hp
      exact hv

/-! ### Seeding lemmas -/

lemma seedFold_spec (seeds : List PageRecord) :
    ∀ (m : List (String × PageRecord)),
      (((m.map Prod.fst).Nodup) →
        ((seeds.foldl (fun m pageInfo => mapSet m pageInfo.url pageInfo) m).map Prod.fst).Nodup) ∧
      ((∀ p ∈ m, p.2.url = p.1) →
        ∀ p ∈ seeds.foldl (fun m pageInfo => mapSet m pageInfo.url pageInfo) m, p.2.url = p.1) ∧
      (∀ r ∈ seeds,
        r.url ∈ (seeds.foldl (fun m pageInfo => mapSet m pageInfo.url pageInfo) m).map Prod.fst) ∧
      (∀ k ∈ (seeds.foldl (fun m pageInfo => mapSet m pageInfo.url pageInfo) m).map Prod.fst,
        k ∈ m.map Prod.fst ∨ ∃ r ∈ seeds, r.url = k) ∧
      (m.map Prod.fst ⊆
        (seeds.foldl (fun m pageInfo => mapSet m pageInfo.url pageInfo) m).map Prod.fst) := by
  induction seeds with
  | nil =>
    intro m
    exact ⟨fun h => h, fun h => h, by simp, fun k hk => Or.inl hk, fun a ha => ha⟩
  | cons r seeds ih =>
    intro m
    have ihm := ih (mapSet m r.url r)
    refine ⟨?_, ?_, ?_, ?_, ?_⟩
    · intro hnd
      exact ihm.1 (mapSet_keys_nodup m r.url r hnd)
    · intro hkv
      exact ihm.2.1 (mapSet_kv m r.url r hkv rfl)
    · intro r' hr'
      rcases List.mem_cons.1 hr' with rfl | hr'
      · exact ihm.2.2.2.2 (mapSet_mem_keys m r'.url r')
      · exact ihm.2.2.1 r' hr'
    · intro k hk
      rcases ihm.2.2.2.1 k hk with hk' | ⟨r', hr', hre⟩
      · rcases mapSet_keys_sub m r.url r k hk' with hk'' | rfl
        · exact Or.inl hk''
        · exact Or.inr ⟨r, List.mem_cons_self _ _, rfl⟩
      · exact Or.inr ⟨r', List.mem_cons_of_mem _ hr', hre⟩
    · intro a ha
      exact ihm.2.2.2.2 (mapSet_keys_mono m r.url r ha)

lemma seedState_inv (seeds : List PageRecord) : FrontierInv (seedState seeds) := by
  refine ⟨(seedFold_spec seeds []).1 (by simp), List.nodup_nil, ?_, ?_⟩
  · intro k _ hk
    exact List.not_mem_nil k hk
  · exact (seedFold_spec seeds []).2.1 (fun p hp => absurd hp (List.not_mem_nil p))

lemma seedState_covers (seeds : List PageRecord) :
    ∀ r ∈ seeds, r.url ∈ pendingKeys (seedState seeds) :=
  (seedFold_spec seeds []).2.2.1

lemma seedState_keys_from (seeds : List PageRecord) :
    ∀ k ∈ pendingKeys (seedState seeds), ∃ r ∈ seeds, r.url = k := by
  intro k hk
  rcases (seedFold_spec seeds []).2.2.2.1 k hk with hk' | h
  · exact absurd hk' (by simp)
  · exact h

/-! ### The run invariant over frontier operation sequences -/

lemma frontierStep_runInv {admitted : List String} {acc : FrontierState × List PageRecord}
    (op : FrontierOp) (h : RunInv admitted acc) :
    RunInv (admitted ++ (match op with
      | FrontierOp.enqueue l => [l.url]
      | FrontierOp.drain _ => [])) (frontierStep acc op) := by
  obtain ⟨hinv, hout, houtc, hcov⟩ := h
  cases op with
  | enqueue l =>
    refine ⟨admitLink_inv _ _ hinv, hout, ?_, ?_⟩
    · intro r hr
      show r.url ∈ (admitLink acc.1 l).crawledUrls
      rw [admitLink_crawled]
      exact houtc r hr
    · intro u hu
      rcases List.mem_append.1 hu with hu | hu
      · rcases hcov u hu with hc | hq
        · left
          show u ∈ (admitLink acc.1 l).crawledUrls
          rw [admitLink_crawled]
          exact hc
        · right
          exact admitLink_keys_mono _ _ hq
      · simp only [List.mem_singleton] at hu
        subst hu
        exact admitLink_covered acc.1 l
  | drain n =>
    obtain ⟨hc, hp, hb⟩ := drainBatch_char acc.1 n hinv
    have hnodup_split := hinv.1
    rw [show pendingKeys acc.1 = (pendingKeys acc.1).take n ++ (pendingKeys acc.1).drop n from
      (List.take_append_drop _ _).symm, List.nodup_append] at hnodup_split
    refine ⟨drainBatch_inv acc.1 n hinv, ?_, ?_, ?_⟩
    · show ((acc.2 ++ (drainBatch acc.1 n).2).map PageRecord.url).Nodup
      rw [List.map_append, hb]
      refine List.Nodup.append hout hnodup_split.1 ?_
      intro a ha hat
      rcases List.mem_map.1 ha with ⟨r, hr, rfl⟩
      exact hinv.2.2.1 r.url ((List.take_sublist _ _).subset hat) (houtc r hr)
    · intro r hr
      show r.url ∈ (drainBatch acc.1 n).1.crawledUrls
      rw [hc]
      rcases List.mem_append.1 hr with hr | hr
      · exact List.mem_append_left _ (houtc r hr)
      · refine List.mem_append_right _ ?_
        rw [← hb]
        exact List.mem_map_of_mem _ hr
    · intro u hu
      rw [List.append_nil] at hu
      rcases hcov u hu with hcu | hqu
      · left
        show u ∈ (drainBatch acc.1 n).1.crawledUrls
        rw [hc]
        exact List.mem_append_left _ hcu
      · rw [show pendingKeys acc.1 = (pendingKeys acc.1).take n ++ (pendingKeys acc.1).drop n from
          (List.take_append_drop _ _).symm] at hqu
        rcases List.mem_append.1 hqu with hqu | hqu
        · left
          show u ∈ (drainBatch acc.1 n).1.crawledUrls
          rw [hc]
          exact List.mem_append_right _ hqu
        · right
          show u ∈ pendingKeys (drainBatch acc.1 n).1
          unfold pendingKeys
          rw [hp, List.map_drop]
          exact hqu

lemma runOpsFrom_runInv (ops : List FrontierOp) :
    ∀ (admitted : List String) (acc : FrontierState × List PageRecord),
      RunInv admitted acc →
      RunInv (admitted ++ ops.filterMap (fun op => match op with
        | FrontierOp.enqueue l => some l.url
        | FrontierOp.drain _ => none)) (runOpsFrom acc ops) := by
  induction ops with
  | nil =>
    intro admitted acc h
    simpa using h
  | cons op ops ih =>
    intro admitted acc h
    have hstep := frontierStep_runInv op h
    cases op with
    | enqueue l =>
      have hstep' : RunInv (admitted ++ [l.url]) (frontierStep acc (FrontierOp.enqueue l)) :=
        hstep
      have hrest := ih (admitted ++ [l.url]) (frontierStep acc (FrontierOp.enqueue l)) hstep'
      have heq : (admitted ++ [l.url]) ++ ops.filterMap (fun op => match op with
          | FrontierOp.enqueue l => some l.url
          | FrontierOp.drain _ => none)
          = admitted ++ (FrontierOp.enqueue l :: ops).filterMap (fun op => match op with
          | FrontierOp.enqueue l => some l.url
          | FrontierOp.drain _ => none) := by
        rw [List.filterMap_cons]
        simp
      exact heq ▸ hrest
    | drain n =>
      have hstep' : RunInv (admitted ++ []) (frontierStep acc (FrontierOp.drain n)) := hstep
      have hrest := ih (admitted ++ []) (frontierStep acc (FrontierOp.drain n)) hstep'
      have heq : (admitted ++ []) ++ ops.filterMap (fun op => match op with
          | FrontierOp.enqueue l => some l.url
          | FrontierOp.drain _ => none)
          = admitted ++ (FrontierOp.drain n :: ops).filterMap (fun op => match op with
          | FrontierOp.enqueue l => some l.url
          | FrontierOp.drain _ => none) := by
        rw [List.filterMap_cons]
        simp
      exact heq ▸ hrest

lemma seeded_runInv (seeds : List PageRecord) :
    RunInv (seeds.map PageRecord.url) (seedState seeds, []) := by
  refine ⟨seedState_inv seeds, by simp, by simp, ?_⟩
  intro v hv
  rcases List.mem_map.1 hv with ⟨r, hr, rfl⟩
  exact Or.inr (seedState_covers seeds r hr)

/-- C1: over every sequence of frontier operations after seeding — worker
admissions of discovered links interleaved with orchestrator batch drains —
each url appears at most once among all records ever returned by
`drainBatch`, no matter how often it was admitted. -/
theorem frontier_dedup (seeds : List PageRecord) (ops : List FrontierOp) (u : String) :
    (((runOps (seedState seeds) ops).2).map PageRecord.url).count u ≤ 1 := by
  have h := runOpsFrom_runInv ops (seeds.map PageRecord.url) (seedState seeds, [])
    (seeded_runInv seeds)
  exact List.nodup_iff_count_le_one.1 h.2.1 u

/-- C2: in every state reachable from a seeded frontier, the invariant
holds (distinct pending keys, duplicate-free visited set, visited and
pending disjoint, entries keyed by their record's url); every url ever
admitted is in exactly one of the two collections; a drained record's url
was pending before the drain and is visited — and no longer pending —
immediately after it (the transition happens inside `drainBatch` itself);
and a worker-side admission never changes the visited set (so nothing
moves to visited when processing completes). -/
theorem frontier_partition_invariant (seeds : List PageRecord)
    (ops : List FrontierOp) (n : Nat) :
    FrontierInv (runOps (seedState seeds) ops).1 ∧
    (∀ u ∈ admittedUrls seeds ops,
      ((runOps (seedState seeds) ops).1.crawledUrls.contains u)
        ≠ ((pendingKeys (runOps (seedState seeds) ops).1).contains u)) ∧
    (∀ r ∈ (drainBatch (runOps (seedState seeds) ops).1 n).2,
      r.url ∈ pendingKeys (runOps (seedState seeds) ops).1 ∧
      r.url ∈ (drainBatch (runOps (seedState seeds) ops).1 n).1.crawledUrls ∧
      r.url ∉ pendingKeys (drainBatch (runOps (seedState seeds) ops).1 n).1) ∧
    (∀ (t : FrontierState) (l : Link), (admitLink t l).crawledUrls = t.crawledUrls) := by
  have h : RunInv (admittedUrls seeds ops) (runOps (seedState seeds) ops) :=
    runOpsFrom_runInv ops (seeds.map PageRecord.url) (seedState seeds, [])
      (seeded_runInv seeds)
  have hinv : FrontierInv (runOps (seedState seeds) ops).1 := h.1
  refine ⟨hinv, ?_, ?_, fun t l => admitLink_crawled t l⟩
  · intro u hu
    have hcov := h.2.2.2 u hu
    have hdis := hinv.2.2.1
    rcases hcov with hc | hq
    · have hkf : ((pendingKeys (runOps (seedState seeds) ops).1).contains u) = false :=
        Bool.eq_false_iff.2 (fun hk => hdis u (contains_eq_mem.1 hk) hc)
      rw [contains_eq_mem.2 hc, hkf]
      simp
    · have hcn : u ∉ (runOps (seedState seeds) ops).1.crawledUrls := hdis u hq
      rw [contains_eq_mem.2 hq,
        Bool.eq_false_iff.2 (fun hx => hcn (contains_eq_mem.1 hx))]
      simp
  · obtain ⟨hc, hp, hb⟩ := drainBatch_char _ n hinv
    have hnodup_split := hinv.1
    rw [show pendingKeys (runOps (seedState seeds) ops).1
        = (pendingKeys (runOps (seedState seeds) ops).1).take n
          ++ (pendingKeys (runOps (seedState seeds) ops).1).drop n from
      (List.take_append_drop _ _).symm, List.nodup_append] at hnodup_split
    intro r hr
    have hru : r.url ∈ (pendingKeys (runOps (seedState seeds) ops).1).take n := by
      rw [← hb]
      exact List.mem_map_of_mem _ hr
    refine ⟨(List.take_sublist _ _).subset hru, ?_, ?_⟩
    · rw [hc]
      exact List.mem_append_right _ hru
    · intro hmem
      have hdropmem : r.url ∈ (pendingKeys (runOps (seedState seeds) ops).1).drop n := by
        unfold pendingKeys at hmem
        rw [hp, List.map_drop] at hmem
        exact hmem
      exact hnodup_split.2.2 hru hdropmem

theorem frontier_partition_invariant_witness :
    FrontierInv (runOps (seedState [samplePage]) [FrontierOp.drain 1]).1 ∧
    (((runOps (seedState [samplePage]) [FrontierOp.drain 1]).1.crawledUrls.contains
        samplePage.url)
      ≠ ((pendingKeys (runOps (seedState [samplePage]) [FrontierOp.drain 1]).1).contains
        samplePage.url)) ∧
    (∀ (t : FrontierState) (l : Link), (admitLink t l).crawledUrls = t.crawledUrls) := by
  have h := frontier_partition_invariant [samplePage] [FrontierOp.drain 1] 1
  exact ⟨h.1, h.2.1 samplePage.url (by decide), h.2.2.2⟩

/-! ### Batch processing and termination of the orchestrator loop -/

lemma workerStep_spec (web : String → Except String RenderedPage)
    (convert : String → Except String String) (fw : String) (r : PageRecord)
    (st : FrontierState) (hinv : FrontierInv st) :
    FrontierInv { st with pendingUrls :=
      (crawlSinglePage (web r.url) convert r st.crawledUrls st.pendingUrls fw).2 } ∧
    (∀ k ∈ pendingKeys { st with pendingUrls :=
        (crawlSinglePage (web r.url) convert r st.crawledUrls st.pendingUrls fw).2 },
      k ∈ pendingKeys st ∨ ∃ page, web r.url = Except.ok page ∧
        ∃ l ∈ findRelatedLinks page.anchors fw, l.url = k) := by
  obtain ⟨hnd, hcnd, hdis, hkv⟩ := hinv
  cases hweb : web r.url with
  | error e =>
    have hpend : (crawlSinglePage (Except.error e) convert r st.crawledUrls st.pendingUrls fw).2
        = st.pendingUrls := rfl
    rw [hpend]
    exact ⟨⟨hnd, hcnd, hdis, hkv⟩, fun k hk => Or.inl hk⟩
  | ok page =>
    have hpend : (crawlSinglePage (Except.ok page) convert r st.crawledUrls st.pendingUrls fw).2
        = (admitLinks (findRelatedLinks page.anchors fw) st.crawledUrls st.pendingUrls).1 :=
      crawlSinglePage_pending_eq (Except.ok page) convert r st.crawledUrls st.pendingUrls fw
    obtain ⟨tail, heq, hmem, hndtail, -⟩ :=
      admitLinks_spec st.crawledUrls (findRelatedLinks page.anchors fw) st.pendingUrls
    have hpend2 : (crawlSinglePage (Except.ok page) convert r st.crawledUrls st.pendingUrls fw).2
        = st.pendingUrls ++ tail := by
      rw [hpend, heq]
    rw [hpend2]
    constructor
    · refine ⟨hndtail hnd, hcnd, ?_, ?_⟩
      · intro k hk
        rcases List.mem_append.1 (by
            rwa [show pendingKeys { st with pendingUrls := st.pendingUrls ++ tail }
              = st.pendingUrls.map Prod.fst ++ tail.map Prod.fst from List.map_append _ _ _]
              at hk) with hk' | hk'
        · exact hdis k hk'
        · rcases List.mem_map.1 hk' with ⟨p, hp, rfl⟩
          exact (hmem p hp).1
      · intro p hp
        rcases List.mem_append.1 hp with hp' | hp'
        · exact hkv p hp'
        · exact (hmem p hp').2.2
    · intro k hk
      rcases List.mem_append.1 (by
          rwa [show pendingKeys { st with pendingUrls := st.pendingUrls ++ tail }
            = st.pendingUrls.map Prod.fst ++ tail.map Prod.fst from List.map_append _ _ _]
            at hk) with hk' | hk'
      · exact Or.inl hk'
      · rcases List.mem_map.1 hk' with ⟨p, hp, rfl⟩
        obtain ⟨-, ⟨l, hl, hurl⟩, -⟩ := hmem p hp
        exact Or.inr ⟨page, rfl, l, hl, hurl⟩

lemma processBatch_spec (web : String → Except String RenderedPage)
    (convert : String → Except String String) (fw : String) (batch : List PageRecord) :
    ∀ (st : FrontierState), FrontierInv st →
      FrontierInv (processBatch web convert fw st batch) ∧
      (processBatch web convert fw st batch).crawledUrls = st.crawledUrls ∧
      (∀ k ∈ pendingKeys (processBatch web convert fw st batch),
        k ∈ pendingKeys st ∨ ∃ r ∈ batch, ∃ page, web r.url = Except.ok page ∧
          ∃ l ∈ findRelatedLinks page.anchors fw, l.url = k) := by
  induction batch with
  | nil =>
    intro st hinv
    exact ⟨hinv, rfl, fun k hk => Or.inl hk⟩
  | cons r batch ih =>
    intro st hinv
    obtain ⟨hinv', hkeys'⟩ := workerStep_spec web convert fw r st hinv
    obtain ⟨hinvFin, hcFin, hkFin⟩ := ih _ hinv'
    refine ⟨hinvFin, hcFin, ?_⟩
    intro k hk
    rcases hkFin k hk with hk' | ⟨r', hr', hrest⟩
    · rcases hkeys' k hk' with hk'' | ⟨page, hweb, hlink⟩
      · exact Or.inl hk''
      · exact Or.inr ⟨r, List.mem_cons_self _ _, page, hweb, hlink⟩
    · exact Or.inr ⟨r', List.mem_cons_of_mem _ hr', hrest⟩

lemma crawlLoop_done (web : String → Except String RenderedPage)
    (convert : String → Except String String) (fw : String) (U : List String)
    (hclosed : ∀ u ∈ U, ∀ page, web u = Except.ok page →
      ∀ l ∈ findRelatedLinks page.anchors fw, l.url ∈ U) :
    ∀ (fuel : Nat) (s : FrontierState), FrontierInv s →
      (∀ u ∈ s.crawledUrls, u ∈ U) → (∀ k ∈ pendingKeys s, k ∈ U) →
      U.length ≤ fuel + s.crawledUrls.length →
      ∃ done, crawlLoop web convert fw fuel s = some done ∧ done.pendingUrls = [] := by
  intro fuel
  induction fuel with
  | zero =>
    intro s hinv hcU hkU hfuel
    cases hp : s.pendingUrls with
    | nil =>
      refine ⟨s, ?_, hp⟩
      show (if s.pendingUrls.isEmpty then some s else none) = some s
      rw [hp]
      rfl
    | cons p rest =>
      exfalso
      have hsub : s.crawledUrls.Subperm U :=
        hinv.2.1.subperm (fun a ha => hcU a ha)
      have hperm : s.crawledUrls.Perm U := hsub.perm_of_length_le (by omega)
      have hkey : p.1 ∈ pendingKeys s := by
        unfold pendingKeys
        rw [hp]
        exact List.mem_map_of_mem Prod.fst (List.mem_cons_self p rest)
      have hpc : p.1 ∈ s.crawledUrls := hperm.symm.subset (hkU p.1 hkey)
      exact hinv.2.2.1 p.1 hkey hpc
  | succ fuel ih =>
    intro s hinv hcU hkU hfuel
    cases hp : s.pendingUrls with
    | nil =>
      refine ⟨s, ?_, hp⟩
      show (if s.pendingUrls.isEmpty then some s else
        crawlLoop web convert fw fuel
          (processBatch web convert fw (drainBatch s 50).1 (drainBatch s 50).2)) = some s
      rw [hp]
      rfl
    | cons p rest =>
      obtain ⟨hcChar, hpChar, hbChar⟩ := drainBatch_char s 50 hinv
      have hinvDrain := drainBatch_inv s 50 hinv
      obtain ⟨hinvProc, hcProc, hkProc⟩ :=
        processBatch_spec web convert fw (drainBatch s 50).2 (drainBatch s 50).1 hinvDrain
      have hcEq : (processBatch web convert fw (drainBatch s 50).1 (drainBatch s 50).2).crawledUrls
          = s.crawledUrls ++ (pendingKeys s).take 50 := by
        rw [hcProc, hcChar]
      have hkeysLen : 1 ≤ ((pendingKeys s).take 50).length := by
        rw [List.length_take]
        have : 1 ≤ (pendingKeys s).length := by
          unfold pendingKeys
          rw [hp]
          simp
        omega
      have hc' : ∀ u ∈ (processBatch web convert fw
          (drainBatch s 50).1 (drainBatch s 50).2).crawledUrls, u ∈ U := by
        intro u hu
        rw [hcEq] at hu
        rcases List.mem_append.1 hu with hu | hu
        · exact hcU u hu
        · exact hkU u ((List.take_sublist _ _).subset hu)
      have hk' : ∀ k ∈ pendingKeys (processBatch web convert fw
          (drainBatch s 50).1 (drainBatch s 50).2), k ∈ U := by
        intro k hk
        rcases hkProc k hk with hk' | ⟨r, hrb, page, hweb, l, hl, hurl⟩
        · have : k ∈ pendingKeys s := by
            unfold pendingKeys at hk' ⊢
            rw [hpChar, List.map_drop] at hk'
            exact (List.drop_sublist _ _).subset hk'
          exact hkU k this
        · have hrU : r.url ∈ U := by
            have : r.url ∈ (pendingKeys s).take 50 := by
              rw [← hbChar]
              exact List.mem_map_of_mem _ hrb
            exact hkU r.url ((List.take_sublist _ _).subset this)
          subst hurl
          exact hclosed r.url hrU page hweb l hl
      have hf' : U.length ≤ fuel + (processBatch web convert fw
          (drainBatch s 50).1 (drainBatch s 50).2).crawledUrls.length := by
        rw [hcEq, List.length_append]
        omega
      obtain ⟨done, hdone, hpend⟩ := ih _ hinvProc hc' hk' hf'
      refine ⟨done, ?_, hpend⟩
      show (if s.pendingUrls.isEmpty then some s else
        crawlLoop web convert fw fuel
          (processBatch web convert fw (drainBatch s 50).1 (drainBatch s 50).2)) = some done
      have hne : s.pendingUrls.isEmpty = false := by
        rw [hp]
        rfl
      rw [hne]
      exact hdone

/-- C3: whenever there is a finite set `U` of urls that contains every seed
url and is closed under in-scope link discovery (the in-scope link graph
reachable from the seeds is finite), the `while (pendingUrls.size > 0)`
loop of `crawlPages` drains at least one new url per iteration and
therefore reaches the completion report after at most `U.length` batch
iterations: with any fuel of at least `U.length` the loop lands in the
Done state with an empty pending map. -/
theorem crawl_loop_terminates (web : String → Except String RenderedPage)
    (convert : String → Except String String) (fw : String) (U : List String)
    (seeds : List PageRecord)
    (hseeds : ∀ r ∈ seeds, r.url ∈ U)
    (hclosed : ∀ u ∈ U, ∀ page, web u = Except.ok page →
      ∀ l ∈ findRelatedLinks page.anchors fw, l.url ∈ U)
    (fuel : Nat) (hfuel : U.length ≤ fuel) :
    ∃ done, crawlLoop web convert fw fuel (seedState seeds) = some done ∧
      done.pendingUrls = [] := by
  apply crawlLoop_done web convert fw U hclosed fuel (seedState seeds) (seedState_inv seeds)
  · intro u hu
    exact absurd hu (List.not_mem_nil u)
  · intro k hk
    obtain ⟨r, hr, hre⟩ := seedState_keys_from seeds k hk
    subst hre
    exact hseeds r hr
  · simpa using hfuel

theorem crawl_loop_terminates_witness :
    ∃ done, crawlLoop c3web Except.ok "foo" 2 (seedState [samplePage]) = some done ∧
      done.pendingUrls = [] := by
  apply crawl_loop_terminates c3web Except.ok "foo" c3U [samplePage] ?_ ?_ 2 ?_
  · decide
  · intro u hu page hpage l hl
    rcases List.mem_cons.1 hu with rfl | hu
    · rw [show c3web samplePage.url = Except.ok pageOneLink from rfl] at hpage
      cases hpage
      have hfl : findRelatedLinks pageOneLink.anchors "foo"
          = [{ url := "https://developer.apple.com/documentation/foo/bar",
               title := "Bar", type := "related" }] := by decide
      rw [hfl] at hl
      simp only [List.mem_singleton] at hl
      subst hl
      decide
    · rcases List.mem_cons.1 hu with rfl | hu
      · rw [show c3web "https://developer.apple.com/documentation/foo/bar"
            = Except.error "timeout" from rfl] at hpage
        exact Except.noConfusion hpage
      · exact absurd hu (List.not_mem_nil u)
  · decide

/-- C9: index assignment at discovery time does not produce stable unique
identifiers. In this execution the seed ingestion gives its only valid
record raw position 1 (position 0 went to a child without a path), the
orchestrator drains it, and the worker then admits a newly discovered
link with `index = crawledUrls.size + pendingUrls.size = 1`: two distinct
admitted records (different urls) carry the same index. -/
theorem index_collision_execution :
    collectValidUrls c9children = [c9seedRec] ∧
    (drainBatch (seedState (collectValidUrls c9children)) 50).2 = [c9seedRec] ∧
    (crawlSinglePage (Except.ok c9page) Except.ok c9seedRec
        (drainBatch (seedState (collectValidUrls c9children)) 50).1.crawledUrls
        (drainBatch (seedState (collectValidUrls c9children)) 50).1.pendingUrls "foo").2
      = [(c9thirdRec.url, c9thirdRec)] ∧
    c9seedRec.index = c9thirdRec.index ∧
    c9seedRec.url ≠ c9thirdRec.url := by
  refine ⟨by decide, by decide, by decide, rfl, by decide⟩

/-- C10: the result-folding loop discards the artifact write entirely —
`fs.writeFile` at crawler.js:270 is neither awaited nor given a rejection
handler — so the final report is the same whatever the write does; in
particular, with a write that fails (e.g. disk full) on a successful
outcome, the loop still reports one success, zero errors, and records no
write failure anywhere. -/
theorem write_failure_silently_ignored
    (writeFile writeFile' : String → String → Except String Unit) (outputDir : String)
    (results : List (CrawlOutcome × PageRecord)) (s e t : Nat) :
    processResults writeFile outputDir results s e t
      = processResults writeFile' outputDir results s e t ∧
    processResults (fun _ _ => Except.error "ENOSPC: no space left on device") "docs/foo"
        [(c10outcome, samplePage)] 0 0 0 = (1, 0, 0) := by
  constructor
  · rfl
  · rfl
